import Mathlib

/-!
# Verification of the workflow execution engine (`src/services/workflowExecution.ts`)

Shallow embedding of the workflow execution engine:

* `topologicalSort` — the depth-first post-order node ordering with
  visited/visiting sets and cycle detection (source lines 520–563).
  The unbounded recursion of the source's `visit` is realised with a fuel
  parameter; `sortFuel` supplies strictly more fuel than the maximal
  recursion depth (a nested `visit` call only happens below a node found in
  the list, and every node on the active path is distinct), and a dedicated
  fuel-exhaustion error message keeps fuel failure separate from the
  source's cycle error so that theorems can rule it out.
* `executeWorkflow` — the run coordinator (source lines 22–138).  External
  collaborators (the Supabase store and the per-node remote services) are
  modelled as parameters: the store as a trace of `DbWrite` records, the
  node executor as a function `exec` returning a `NodeResult` (a thrown
  JS exception is the `errored` outcome, caught per context by the
  fan-out loop exactly as the source's try/catch does).
* `executeFilterNode` — the synchronous filter rule evaluator (source
  lines 425–463).  JS `Date` parsing is modelled by a parse parameter
  `dp : String → Option Int` (`none` = Invalid Date); JS comparison of an
  Invalid Date is always false, which `jsLeOpt`/`jsGeOpt` reproduce.

Payload values (`data` in the source) are JS objects; the engine is
polymorphic in the payload type, and the concrete `Payload` structure
models the fields the filter and the concrete end-to-end runs read.
-/

/-- The check `containsSubList pat l` is true iff `pat` occurs as a contiguous
sublist of `l` (JS `String.prototype.includes` on char lists). -/
def containsSubList (pat : List Char) : List Char → Bool
  | [] => pat.isEmpty
  | c :: rest => pat.isPrefixOf (c :: rest) || containsSubList pat rest

/-- JS `s.includes(pat)`. -/
def strIncludes (s pat : String) : Bool :=
  containsSubList pat.data s.data

/-- JS `o?.toLowerCase().includes(v.toLowerCase())` for an optional string
field `o`: an absent field yields `undefined`, which is falsy. -/
def containsCI (o : Option String) (v : String) : Bool :=
  match o with
  | some s => strIncludes s.toLower v.toLower
  | none => false

/-- JS `a || b` on optional string fields: `undefined` and the empty
string are falsy. -/
def jsOrStr (a b : Option String) : Option String :=
  match a with
  | some s => if s = "" then b else some s
  | none => b

/-- JS `x <= y` on two `Date` values modelled as `Option Int`
(`none` = Invalid Date, whose comparisons are all false). -/
def jsLeOpt (a b : Option Int) : Bool :=
  match a, b with
  | some x, some y => x ≤ y
  | _, _ => false

/-- JS `x >= y` on two `Date` values modelled as `Option Int`. -/
def jsGeOpt (a b : Option Int) : Bool :=
  match a, b with
  | some x, some y => x ≥ y
  | _, _ => false

/-- JS object spread `{...m, [k]: v}` on a record modelled as an
association list: an existing key keeps its position and gets the new
value, a fresh key is appended. -/
def recordSet {α : Type} (m : List (String × α)) (k : String) (v : α) :
    List (String × α) :=
  if m.any (fun p => p.1 = k) then
    m.map (fun p => if p.1 = k then (k, v) else p)
  else m ++ [(k, v)]

/-- One filter rule of a filter node's `config.filters` list.  The source
stores rules as untyped objects `{type, operator?, value}`; this is the
typed view: `keyword` and `date` carry string values, `score` a numeric
one, and `other` stands for any rule whose `type` is none of the three
recognized strings (the switch falls through for those). -/
inductive FilterRule where
  | keyword (value : String)
  | date (op : String) (value : String)
  | score (op : String) (value : Int)
  | other (type : String)
deriving DecidableEq, Repr

/-- The node-type-specific options of a node (`node.config`); only the
filter list is semantically load-bearing for the embedded claims. -/
structure NodeConfig where
  filters : List FilterRule
deriving DecidableEq, Repr

/-- A workflow node (`WorkflowNode` of `@/types/WorkflowTypes`): id, the
polymorphic `type` tag, a display label, config and the ordered list of
downstream node ids. -/
structure WorkflowNode where
  id : String
  type : String
  label : String
  config : NodeConfig
  connected : List String
deriving DecidableEq, Repr

/-- One in-flight branch of data (`WorkflowExecutionContext` in the
source): `metadata` is the JS record accumulated with object spread. -/
structure WorkflowExecutionContext (α : Type) where
  executionId : String
  data : α
  metadata : List (String × α)
deriving DecidableEq, Repr

/-- The payload fields read by the embedded handlers.  JS payloads are
open objects; absent fields are `none`.  `priority_score` is modelled as
an integer. -/
structure Payload where
  title : Option String := none
  content : Option String := none
  description : Option String := none
  publishedAt : Option String := none
  published_date : Option String := none
  priority_score : Option Int := none
  source_type : Option String := none
  execution_context : Option String := none
  published_article : Option String := none
deriving DecidableEq, Repr

/-- The value `new Date(data.publishedAt || data.published_date)` under the date
parse parameter `dp`. -/
def parsedArticleDate (dp : String → Option Int) (d : Payload) : Option Int :=
  match jsOrStr d.publishedAt d.published_date with
  | some s => dp s
  | none => none

/-- The rule loop of `executeFilterNode` (source lines 432–460): rules are
checked in order, the first rejecting rule returns `null` (the remaining
rules are not evaluated), and the payload is returned unchanged if no rule
rejects.  Each branch reproduces the source's conditions verbatim. -/
def filterLoop (dp : String → Option Int) :
    List FilterRule → Payload → Option Payload
  | [], d => some d
  | r :: rest, d =>
    match r with
    | .keyword v =>
      if containsCI d.title v = false ∧ containsCI d.content v = false then
        none
      else filterLoop dp rest d
    | .date op v =>
      let articleDate := parsedArticleDate dp d
      let filterDate := dp v
      if op = "after" ∧ jsLeOpt articleDate filterDate then none
      else if op = "before" ∧ jsGeOpt articleDate filterDate then none
      else filterLoop dp rest d
    | .score op v =>
      let score := match d.priority_score with | some s => s | none => 0
      if op = "gt" ∧ score ≤ v then none
      else if op = "lt" ∧ score ≥ v then none
      else filterLoop dp rest d
    | .other _ => filterLoop dp rest d

/-- Source `executeFilterNode` (lines 425–463): applies the node's
configured filters to the context's data. -/
def executeFilterNode (dp : String → Option Int) (node : WorkflowNode)
    (ctx : WorkflowExecutionContext Payload) : Option Payload :=
  filterLoop dp node.config.filters ctx.data

/-- The outcome of `executeNode` for one node and one context, as observed
by the fan-out loop of `executeWorkflow` (source lines 68–94): a returned
array, a returned single non-null value, a returned `null`/`undefined`, or
a thrown exception (caught by the loop's try/catch). -/
inductive NodeResult (α : Type) where
  | list (xs : List α)
  | single (x : α)
  | nullish
  | errored (msg : String)
deriving DecidableEq, Repr

/-- Whether a `NodeResult` is the thrown-exception outcome. -/
def NodeResult.isErrored {α : Type} : NodeResult α → Bool
  | .errored _ => true
  | _ => false

/-- The metadata key `` `${node.type}_${node.id}` `` of source line 78. -/
def metaKey (node : WorkflowNode) : String :=
  node.type ++ "_" ++ node.id

/-- The spawned execution id `` `${context.executionId}-${node.id}-${index}` ``
of source line 76. -/
def branchId (parent nodeId : String) (index : Nat) : String :=
  parent ++ "-" ++ nodeId ++ "-" ++ toString index

/-- The `nodeResults.forEach((result, index) => newContexts.push(...))`
loop of source lines 74–80, carrying the running index. -/
def spawnContexts {α : Type} (node : WorkflowNode)
    (ctx : WorkflowExecutionContext α) :
    Nat → List α → List (WorkflowExecutionContext α)
  | _, [] => []
  | i, x :: xs =>
    { executionId := branchId ctx.executionId node.id i
      data := x
      metadata := recordSet ctx.metadata (metaKey node) x } ::
      spawnContexts node ctx (i + 1) xs

/-- The per-context body of the fan-out loop (source lines 68–94): the
contexts contributed to `newContexts` by one context.  An array fans out
via `spawnContexts`; a single non-null value reuses the context id; `null`
/`undefined` contributes nothing; a thrown error is caught and likewise
contributes nothing. -/
def processContext {α : Type}
    (exec : WorkflowNode → WorkflowExecutionContext α → NodeResult α)
    (node : WorkflowNode) (ctx : WorkflowExecutionContext α) :
    List (WorkflowExecutionContext α) :=
  match exec node ctx with
  | .list xs => spawnContexts node ctx 0 xs
  | .single x =>
    [{ executionId := ctx.executionId
       data := x
       metadata := recordSet ctx.metadata (metaKey node) x }]
  | .nullish => []
  | .errored _ => []

/-- One whole generation step at a node: `newContexts` after the inner
loop over `executionContexts` (source lines 61–95). -/
def stepNode {α : Type}
    (exec : WorkflowNode → WorkflowExecutionContext α → NodeResult α)
    (node : WorkflowNode) (ctxs : List (WorkflowExecutionContext α)) :
    List (WorkflowExecutionContext α) :=
  ctxs.flatMap (processContext exec node)

/-- The `for (const node of sortedNodes)` loop of source lines 58–105,
with the early `break` when a generation comes out empty.  Besides the
final generation it returns the trace of `executeNode` invocations (one
`(node.id, context.executionId)` pair per processed context) and the list
of generations produced after each executed node. -/
def execLoop {α : Type}
    (exec : WorkflowNode → WorkflowExecutionContext α → NodeResult α) :
    List WorkflowNode → List (WorkflowExecutionContext α) →
    List (WorkflowExecutionContext α) × List (String × String) ×
      List (List (WorkflowExecutionContext α))
  | [], ctxs => (ctxs, [], [])
  | node :: rest, ctxs =>
    let next := stepNode exec node ctxs
    let invs := ctxs.map (fun c => (node.id, c.executionId))
    if next.isEmpty then (next, invs, [next])
    else
      let r := execLoop exec rest next
      (r.1, invs ++ r.2.1, next :: r.2.2)

/-- One successful write to the `workflow_executions` store, as issued by
`executeWorkflow`: the insert of source lines 30–39 or one of the two
terminal updates (lines 108–118 and 127–134).  `completedAtSet` records
whether the write carries a `completed_at` timestamp. -/
structure DbWrite (α : Type) where
  kind : String
  status : String
  completedAtSet : Bool
  result : Option (Nat × List α)
  errorMessage : Option String
deriving DecidableEq, Repr

/-- The initial insert: status `running`, `started_at` set, no
`completed_at`, no result (source lines 30–39). -/
def insertWrite (α : Type) : DbWrite α :=
  { kind := "insert", status := "running", completedAtSet := false
    result := none, errorMessage := none }

/-- The normal terminal update (source lines 108–118): status
`completed`, `completed_at` set, result = context count plus the final
payload bodies. -/
def completedWrite {α : Type} (ctxs : List (WorkflowExecutionContext α)) :
    DbWrite α :=
  { kind := "update", status := "completed", completedAtSet := true
    result := some (ctxs.length, ctxs.map (fun c => c.data))
    errorMessage := none }

/-- The failure terminal update (source lines 127–134): status `failed`,
`completed_at` set, the caught error's message recorded. -/
def failedWrite (α : Type) (msg : String) : DbWrite α :=
  { kind := "update", status := "failed", completedAtSet := true
    result := none, errorMessage := some msg }

/-- How `executeWorkflow` ends for its caller: a thrown error or a
returned execution summary carrying the given status. -/
inductive RunOutcome where
  | returned (status : String)
  | thrown (msg : String)
deriving DecidableEq, Repr

/-- Everything observable about one `executeWorkflow` run: the successful
store writes in order, the `executeNode` invocation trace, every
generation of contexts that ever existed (the seeded root generation
first), and the outcome for the caller. -/
structure RunResult (α : Type) where
  dbOps : List (DbWrite α)
  invocations : List (String × String)
  generations : List (List (WorkflowExecutionContext α))
  outcome : RunOutcome
deriving DecidableEq, Repr

/-- The root context seeded at source lines 51–55: the execution record's
id, `triggerData || {}` as data, empty metadata. -/
def rootContext {α : Type} (execId : String) (triggerData : Option α)
    (empty : α) : WorkflowExecutionContext α :=
  { executionId := execId
    data := match triggerData with | some d => d | none => empty
    metadata := [] }

/-- The mutable state of `topologicalSort`'s DFS (source lines 521–523):
the output accumulator and the two id sets, all kept as lists (the JS
sets only ever receive ids not currently present, so lists are exact). -/
structure SortState where
  sorted : List WorkflowNode
  visited : List String
  visiting : List String
deriving DecidableEq, Repr

/-- The error thrown at source line 527. -/
def cycleErrorMsg : String := "Circular dependency detected in workflow"

/-- The fuel-exhaustion marker of the embedding (never reachable with
`sortFuel` fuel; distinct from `cycleErrorMsg`). -/
def fuelErrorMsg : String := "FUEL_EXHAUSTED"

/-- Source `nodes.find(n => n.id === nodeId)` (line 535). -/
def findNode (nodes : List WorkflowNode) (nodeId : String) :
    Option WorkflowNode :=
  nodes.find? (fun n => n.id == nodeId)

/-- Error-short-circuiting fold of an action over a list of ids: the
`for (const connectedId of node.connected) visit(connectedId)` loop
(source lines 538–540), with a thrown error aborting the whole loop. -/
def exceptFold (f : String → SortState → Except String SortState) :
    List String → SortState → Except String SortState
  | [], st => .ok st
  | c :: cs, st =>
    match f c st with
    | .error e => .error e
    | .ok st' => exceptFold f cs st'

/-- One unfolding of the source's recursive `visit` (source lines
525–547), with the nested recursion abstracted as `rec`:
cycle check, visited check, mark visiting, look the node up, visit its
`connected` list, emit the node post-order and mark it visited (a missing
node is silently skipped), and finally unmark visiting. -/
def visitStep (nodes : List WorkflowNode)
    (rec : String → SortState → Except String SortState)
    (nodeId : String) (st : SortState) : Except String SortState :=
  if nodeId ∈ st.visiting then .error cycleErrorMsg
  else if nodeId ∈ st.visited then .ok st
  else
    let st1 : SortState := { st with visiting := st.visiting ++ [nodeId] }
    match findNode nodes nodeId with
    | some node =>
      match exceptFold rec node.connected st1 with
      | .error e => .error e
      | .ok st2 =>
        .ok { sorted := st2.sorted ++ [node]
              visited := st2.visited ++ [nodeId]
              visiting := st2.visiting.erase nodeId }
    | none => .ok { st1 with visiting := st1.visiting.erase nodeId }

/-- The source's `visit`, with fuel bounding the recursion depth. -/
def visitF (nodes : List WorkflowNode) : Nat → String → SortState →
    Except String SortState
  | 0 => fun _ _ => .error fuelErrorMsg
  | fuel + 1 => visitStep nodes (visitF nodes fuel)

/-- The `for (const node of nodes) if (!visited.has(node.id)) visit(node.id)`
loop of source lines 556–560. -/
def remainingFold (f : String → SortState → Except String SortState) :
    List WorkflowNode → SortState → Except String SortState
  | [], st => .ok st
  | n :: ns, st =>
    if n.id ∈ st.visited then remainingFold f ns st
    else
      match f n.id st with
      | .error e => .error e
      | .ok st' => remainingFold f ns st'

/-- Fuel strictly exceeding any possible `visit` nesting depth: every
nested call happens under a node found in `nodes` whose id is freshly on
the visiting path, so the depth never exceeds `nodes.length + 1`. -/
def sortFuel (nodes : List WorkflowNode) : Nat := nodes.length + 1

/-- Source `topologicalSort` (lines 520–563): visit all trigger nodes,
then every node not yet visited, and return the accumulated post-order.
A thrown error (the source's cycle error) aborts the whole sort. -/
def topologicalSort (nodes : List WorkflowNode) :
    Except String (List WorkflowNode) :=
  let visit := visitF nodes (sortFuel nodes)
  let triggerIds :=
    (nodes.filter (fun n => n.type == "trigger")).map (fun n => n.id)
  match exceptFold visit triggerIds { sorted := [], visited := [], visiting := [] } with
  | .error e => .error e
  | .ok st1 =>
    match remainingFold visit nodes st1 with
    | .error e => .error e
    | .ok st2 => .ok st2.sorted

/-- Source `executeWorkflow` (lines 22–138).  Parameters model the
external collaborators: `insertOk` is whether the initial store insert
succeeds (it throws otherwise, before anything else happens), `execId` is
the store-generated id of the created execution record, `exec` resolves
each `executeNode` call, and `triggerData` is the optional trigger
payload (`triggerData || {}` seeds `empty` when absent).  The store's
`update` calls return in-band errors the source never inspects, so they
always appear in the trace. -/
def executeWorkflow {α : Type} (insertOk : Bool) (execId : String)
    (exec : WorkflowNode → WorkflowExecutionContext α → NodeResult α)
    (nodes : List WorkflowNode) (triggerData : Option α) (empty : α) :
    RunResult α :=
  if insertOk = false then
    { dbOps := [], invocations := [], generations := []
      outcome := .thrown "insert failed" }
  else
    match topologicalSort nodes with
    | .error msg =>
      { dbOps := [insertWrite α, failedWrite α msg]
        invocations := [], generations := [], outcome := .thrown msg }
    | .ok sorted =>
      let root : WorkflowExecutionContext α := rootContext execId triggerData empty
      let r := execLoop exec sorted [root]
      { dbOps := [insertWrite α, completedWrite r.1]
        invocations := r.2.1
        generations := [root] :: r.2.2
        outcome := .returned "completed" }

/-- The edge relation of the node graph exactly as the DFS walks it:
`a → b` iff the node the source's lookup resolves for id `a` lists `b`
among its `connected` targets.  (With pairwise-distinct ids this is the
ordinary edge relation of the list.) -/
def edgeF (nodes : List WorkflowNode) (a b : String) : Prop :=
  ∃ n, findNode nodes a = some n ∧ b ∈ n.connected

/-- Acyclicity of the node graph: no id has a nonempty path back to
itself. -/
def Acyclic (nodes : List WorkflowNode) : Prop :=
  ∀ a, ¬ Relation.TransGen (edgeF nodes) a a

/-- The id can reach a cycle: some id on a nonempty cycle is reachable
from `id`. -/
def CanReachCycle (nodes : List WorkflowNode) (id : String) : Prop :=
  ∃ a, Relation.ReflTransGen (edgeF nodes) id a ∧
    Relation.TransGen (edgeF nodes) a a

/-- The per-rule rejection predicate of the claimed reference evaluator,
written from the specification's words alone: a keyword rule rejects
exactly when neither title nor content contains the value
case-insensitively; a score rule under `gt` rejects exactly when the
score (0 when missing) is not strictly greater than the threshold,
symmetrically for `lt`; rules of kinds not described there never
reject. -/
def specRejects (r : FilterRule) (d : Payload) : Bool :=
  match r with
  | .keyword v => !(containsCI d.title v || containsCI d.content v)
  | .score op v =>
    let score := match d.priority_score with | some s => s | none => 0
    if op = "gt" then decide (¬ score > v)
    else if op = "lt" then decide (¬ score < v)
    else false
  | _ => false

/-- The reference evaluator described by the claim: `null` exactly when
some rule rejects (checking in order with a short-circuit cannot be
distinguished from `any`, because no rule mutates the payload), the
unchanged payload otherwise. -/
def refFilter (rules : List FilterRule) (d : Payload) : Option Payload :=
  if rules.any (fun r => specRejects r d) then none else some d

/-- The predicate `specRejects` extended with the date-rule semantics the source
actually implements: under `after` reject exactly when both the payload's
effective date and the rule's date parse and the payload date is not
strictly after the rule date; symmetrically for `before`; other date
operators never reject. -/
def specRejectsFull (dp : String → Option Int) (r : FilterRule)
    (d : Payload) : Bool :=
  match r with
  | .date op v =>
    if op = "after" then jsLeOpt (parsedArticleDate dp d) (dp v)
    else if op = "before" then jsGeOpt (parsedArticleDate dp d) (dp v)
    else false
  | r => specRejects r d

/-- The reference evaluator amended with the date-rule semantics. -/
def refFilterFull (dp : String → Option Int) (rules : List FilterRule)
    (d : Payload) : Option Payload :=
  if rules.any (fun r => specRejectsFull dp r d) then none else some d

theorem filterLoop_cons_eq (dp : String → Option Int) (r : FilterRule)
    (rest : List FilterRule) (d : Payload) :
    filterLoop dp (r :: rest) d =
      if specRejectsFull dp r d then none else filterLoop dp rest d := by
  cases r with
  | keyword v =>
    by_cases ht : containsCI d.title v = false ∧ containsCI d.content v = false
    · obtain ⟨h1, h2⟩ := ht
      simp [filterLoop, specRejectsFull, specRejects, h1, h2]
    · rw [not_and_or] at ht
      rcases ht with h | h <;>
        [skip; skip] <;>
        · rw [Bool.not_eq_false] at h
          simp [filterLoop, specRejectsFull, specRejects, h]
  | date op v =>
    by_cases ha : op = "after"
    · subst ha
      cases hle : jsLeOpt (parsedArticleDate dp d) (dp v) <;>
        simp [filterLoop, specRejectsFull, hle]
    · by_cases hb : op = "before"
      · subst hb
        cases hge : jsGeOpt (parsedArticleDate dp d) (dp v) <;>
          simp [filterLoop, specRejectsFull, ha, hge]
      · simp [filterLoop, specRejectsFull, ha, hb]
  | score op v =>
    by_cases hg : op = "gt"
    · subst hg
      by_cases hle : (match d.priority_score with | some s => s | none => 0) ≤ v
      · simp [filterLoop, specRejectsFull, specRejects, hle, not_lt]
      · simp [filterLoop, specRejectsFull, specRejects, hle, not_lt,
          lt_of_not_le hle]
    · by_cases hl : op = "lt"
      · subst hl
        by_cases hge : v ≤ (match d.priority_score with | some s => s | none => 0)
        · simp [filterLoop, specRejectsFull, specRejects, hg, hge, not_lt]
        · simp [filterLoop, specRejectsFull, specRejects, hg, hge, not_lt,
            lt_of_not_le hge]
      · simp [filterLoop, specRejectsFull, specRejects, hg, hl]
  | other t =>
    simp [filterLoop, specRejectsFull, specRejects]

theorem filterLoop_eq_refFilterFull (dp : String → Option Int) :
    ∀ (rules : List FilterRule) (d : Payload),
      filterLoop dp rules d = refFilterFull dp rules d := by
  intro rules d
  induction rules with
  | nil => simp [filterLoop, refFilterFull]
  | cons r rest ih =>
    rw [filterLoop_cons_eq]
    cases hr : specRejectsFull dp r d with
    | true => simp [refFilterFull, hr]
    | false => simp [refFilterFull, hr, ih]

/-- A concrete date parse used for concrete runs: a finite table of
parseable date strings (kept kernel-computable). -/
def dateParseStub (s : String) : Option Int :=
  if s = "2020" then some 2020 else if s = "2021" then some 2021 else none

/-- The filter node and context of the C7 counterexample: a single date
rule `after 2021` against a payload dated 2020. -/
def dateFilterNode : WorkflowNode :=
  { id := "f", type := "filter", label := "Filter"
    config := { filters := [FilterRule.date "after" "2021"] }
    connected := [] }

/-- The payload of the C7 counterexample. -/
def datedPayload : Payload := { published_date := some "2020" }

/-- C7 counterexample: the claim's reference evaluator has no date-rule
case, so a date rule is one of its "unrecognized kinds" and never
rejects; the source's `executeFilterNode` does reject on a date rule.
At a payload dated 2020 and a rule `date after 2021` the two disagree,
refuting the claimed equality. -/
theorem C7_counterexample_date_rule :
    executeFilterNode dateParseStub dateFilterNode
        { executionId := "e", data := datedPayload, metadata := [] } = none ∧
      refFilter dateFilterNode.config.filters datedPayload =
        some datedPayload := by
  constructor <;> rfl

/-- C7 (amended): `executeFilterNode` equals the reference evaluator once
the reference is extended with the source's date-rule semantics (under
`after`, reject exactly when both dates parse and the payload date is not
strictly after the rule date; symmetrically for `before`): rules are
checked in order, the first rejecting rule yields `null`, keyword and
score rules reject as the claim states, rules of unrecognized kinds never
reject, and the payload is returned unchanged when no rule rejects. -/
theorem C7_executeFilterNode_eq_reference (dp : String → Option Int)
    (node : WorkflowNode) (ctx : WorkflowExecutionContext Payload) :
    executeFilterNode dp node ctx = refFilterFull dp node.config.filters ctx.data :=
  filterLoop_eq_refFilterFull dp node.config.filters ctx.data

/-- C10: when the payload has no parseable `publishedAt` or
`published_date` (the parsed article date is invalid), a date rule —
whatever its operator, in particular `after` and `before` — never rejects
the context: dropping it from the rule list does not change the filter's
result, and as the only rule it passes the payload through unchanged. -/
theorem C10_date_rule_passes_dateless (dp : String → Option Int)
    (d : Payload) (op v : String) (rs₁ rs₂ : List FilterRule)
    (h : parsedArticleDate dp d = none) :
    filterLoop dp (rs₁ ++ FilterRule.date op v :: rs₂) d =
        filterLoop dp (rs₁ ++ rs₂) d ∧
      filterLoop dp [FilterRule.date op v] d = some d := by
  have hrej : specRejectsFull dp (FilterRule.date op v) d = false := by
    simp only [specRejectsFull, h, jsLeOpt, jsGeOpt]
    split
    · rfl
    · split <;> rfl
  constructor
  · rw [filterLoop_eq_refFilterFull, filterLoop_eq_refFilterFull]
    simp [refFilterFull, List.any_append, hrej]
  · rw [filterLoop_eq_refFilterFull]
    simp [refFilterFull, hrej]

/-- Witness for C10 at a concrete date-less payload. -/
theorem C10_witness :
    parsedArticleDate dateParseStub {} = none ∧
      (filterLoop dateParseStub
          ([FilterRule.keyword "ai"] ++ FilterRule.date "after" "2021" :: []) {} =
          filterLoop dateParseStub ([FilterRule.keyword "ai"] ++ []) {} ∧
        filterLoop dateParseStub [FilterRule.date "after" "2021"] {} = some {}) :=
  ⟨rfl, C10_date_rule_passes_dateless dateParseStub {} "after" "2021"
    [FilterRule.keyword "ai"] [] rfl⟩

/-- Numeric value of a decimal digit character. -/
def decCharVal (c : Char) : Nat := c.toNat - '0'.toNat

/-- Decimal value of a digit string, most significant digit first. -/
def decListVal (l : List Char) : Nat :=
  l.foldl (fun a c => 10 * a + decCharVal c) 0

theorem decCharVal_digitChar (d : Nat) (h : d < 10) :
    decCharVal (Nat.digitChar d) = d := by
  interval_cases d <;> rfl

theorem toDigitsCore_shift :
    ∀ (n fuel : Nat) (ds : List Char), n < fuel →
      Nat.toDigitsCore 10 fuel n ds = Nat.toDigitsCore 10 (n + 1) n [] ++ ds := by
  intro n
  induction n using Nat.strong_induction_on with
  | _ n ih =>
    intro fuel ds h
    obtain ⟨f, rfl⟩ : ∃ f, fuel = f + 1 := ⟨fuel - 1, by omega⟩
    by_cases hz : n / 10 = 0
    · simp only [Nat.toDigitsCore, hz, if_true]
      rfl
    · have hn10 : 10 ≤ n := by
        by_contra hlt
        exact hz (Nat.div_eq_of_lt (by omega))
      have hlt : n / 10 < n := Nat.div_lt_self (by omega) (by omega)
      have hf : n / 10 < f := by omega
      simp only [Nat.toDigitsCore, hz, if_false]
      rw [ih (n / 10) hlt f (Nat.digitChar (n % 10) :: ds) hf,
        ih (n / 10) hlt n [Nat.digitChar (n % 10)] (by omega)]
      simp

theorem decListVal_append_singleton (l : List Char) (c : Char) :
    decListVal (l ++ [c]) = 10 * decListVal l + decCharVal c := by
  simp [decListVal, List.foldl_append]

theorem decListVal_toDigits (n : Nat) :
    decListVal (Nat.toDigits 10 n) = n := by
  induction n using Nat.strong_induction_on with
  | _ n ih =>
    by_cases hz : n / 10 = 0
    · have hn : n < 10 := (Nat.div_eq_zero_iff (by omega)).mp hz
      simp only [Nat.toDigits, Nat.toDigitsCore, hz, if_true]
      have hmod : n % 10 = n := Nat.mod_eq_of_lt hn
      simp [decListVal, hmod, decCharVal_digitChar n hn]
    · have hn10 : 10 ≤ n := by
        by_contra hlt
        exact hz (Nat.div_eq_of_lt (by omega))
      have hlt : n / 10 < n := Nat.div_lt_self (by omega) (by omega)
      have step : Nat.toDigits 10 n =
          Nat.toDigits 10 (n / 10) ++ [Nat.digitChar (n % 10)] := by
        simp only [Nat.toDigits, Nat.toDigitsCore, hz, if_false]
        exact toDigitsCore_shift (n / 10) n [Nat.digitChar (n % 10)] hlt
      rw [step, decListVal_append_singleton, ih (n / 10) hlt,
        decCharVal_digitChar (n % 10) (Nat.mod_lt n (by omega))]
      omega

theorem natRepr_injective : Function.Injective Nat.repr := by
  intro a b h
  have hd : Nat.toDigits 10 a = Nat.toDigits 10 b := List.asString_inj.mp h
  have := congrArg decListVal hd
  rwa [decListVal_toDigits, decListVal_toDigits] at this

theorem natToString_injective {a b : Nat} (h : toString a = toString b) :
    a = b :=
  natRepr_injective h

theorem branchId_index_inj (p nid : String) {i j : Nat}
    (h : branchId p nid i = branchId p nid j) : i = j := by
  unfold branchId at h
  have hd := congrArg String.data h
  simp only [String.data_append, List.append_assoc,
    List.append_cancel_left_eq] at hd
  exact natToString_injective (String.ext hd)

theorem spawnContexts_length {α : Type} (node : WorkflowNode)
    (ctx : WorkflowExecutionContext α) :
    ∀ (xs : List α) (i : Nat), (spawnContexts node ctx i xs).length = xs.length := by
  intro xs
  induction xs with
  | nil => intro i; rfl
  | cons x xs ih => intro i; simp [spawnContexts, ih]

theorem spawnContexts_get? {α : Type} (node : WorkflowNode)
    (ctx : WorkflowExecutionContext α) :
    ∀ (xs : List α) (i j : Nat) (x : α), xs.get? j = some x →
      (spawnContexts node ctx i xs).get? j =
        some { executionId := branchId ctx.executionId node.id (i + j)
               data := x
               metadata := recordSet ctx.metadata (metaKey node) x } := by
  intro xs
  induction xs with
  | nil => intro i j x h; simp at h
  | cons y ys ih =>
    intro i j x h
    cases j with
    | zero =>
      simp only [List.get?] at h
      cases h
      simp [spawnContexts]
    | succ j =>
      simp only [List.get?] at h
      have := ih (i + 1) j x h
      simpa [spawnContexts, Nat.add_assoc, Nat.add_comm 1 j] using this

theorem spawnContexts_id_mem {α : Type} (node : WorkflowNode)
    (ctx : WorkflowExecutionContext α) :
    ∀ (xs : List α) (i : Nat) (c : WorkflowExecutionContext α),
      c ∈ spawnContexts node ctx i xs →
      ∃ j, i ≤ j ∧ c.executionId = branchId ctx.executionId node.id j := by
  intro xs
  induction xs with
  | nil => intro i c h; simp [spawnContexts] at h
  | cons y ys ih =>
    intro i c h
    simp only [spawnContexts, List.mem_cons] at h
    rcases h with h | h
    · exact ⟨i, le_refl i, by rw [h]⟩
    · obtain ⟨j, hij, he⟩ := ih (i + 1) c h
      exact ⟨j, by omega, he⟩

theorem spawnContexts_ids_nodup {α : Type} (node : WorkflowNode)
    (ctx : WorkflowExecutionContext α) :
    ∀ (xs : List α) (i : Nat),
      ((spawnContexts node ctx i xs).map
        (fun c => c.executionId)).Nodup := by
  intro xs
  induction xs with
  | nil => intro i; simp [spawnContexts]
  | cons y ys ih =>
    intro i
    simp only [spawnContexts, List.map_cons, List.nodup_cons]
    refine ⟨?_, ih (i + 1)⟩
    intro hmem
    obtain ⟨c, hc, he⟩ := List.mem_map.mp hmem
    obtain ⟨j, hij, hid⟩ := spawnContexts_id_mem node ctx ys (i + 1) c hc
    rw [hid] at he
    have := branchId_index_inj ctx.executionId node.id he
    omega

/-- C3: the fan-out step preserves exactly three Node Executor outcomes.
A returned list of `k` elements spawns `k` new contexts whose execution
ids are `{parentContextId}-{nodeId}-{index}` for `index = 0..k-1` (hence
pairwise distinct), each carrying that element as data and the parent's
metadata plus one entry keyed `{nodeType}_{nodeId}`; a single
non-null/non-undefined value reuses the context id with data replaced and
metadata extended the same way; `null`/`undefined` drops the context from
the next generation without error. -/
theorem C3_fanout_preserves_outcomes {α : Type}
    (exec : WorkflowNode → WorkflowExecutionContext α → NodeResult α)
    (node : WorkflowNode) (ctx : WorkflowExecutionContext α) :
    (∀ xs, exec node ctx = .list xs →
      (processContext exec node ctx).length = xs.length ∧
      (∀ j x, xs.get? j = some x →
        (processContext exec node ctx).get? j =
          some { executionId := branchId ctx.executionId node.id j
                 data := x
                 metadata := recordSet ctx.metadata (metaKey node) x }) ∧
      ((processContext exec node ctx).map (fun c => c.executionId)).Nodup) ∧
    (∀ x, exec node ctx = .single x →
      processContext exec node ctx =
        [{ executionId := ctx.executionId, data := x
           metadata := recordSet ctx.metadata (metaKey node) x }]) ∧
    (exec node ctx = .nullish → processContext exec node ctx = []) := by
  refine ⟨?_, ?_, ?_⟩
  · intro xs h
    simp only [processContext, h]
    exact ⟨spawnContexts_length node ctx xs 0,
      fun j x hx => by simpa using spawnContexts_get? node ctx xs 0 j x hx,
      spawnContexts_ids_nodup node ctx xs 0⟩
  · intro x h
    simp [processContext, h]
  · intro h
    simp [processContext, h]

/-- A discovery-like node used by the concrete fan-out witness. -/
def c3Node : WorkflowNode :=
  { id := "n", type := "news-discovery", label := "N"
    config := { filters := [] }, connected := [] }

/-- The parent context of the concrete fan-out witness. -/
def c3Ctx : WorkflowExecutionContext Nat :=
  { executionId := "e", data := 0, metadata := [] }

/-- Witness for C3 at concrete executors returning a two-element list, a
single value and `null`. -/
theorem C3_witness :
    (processContext (fun _ _ => NodeResult.list [7, 8]) c3Node c3Ctx).get? 1 =
        some { executionId := branchId "e" "n" 1, data := 8
               metadata := recordSet [] (metaKey c3Node) 8 } ∧
      ((processContext (fun _ _ => NodeResult.list [7, 8]) c3Node c3Ctx).map
        (fun c => c.executionId)).Nodup ∧
      processContext (fun _ _ => NodeResult.single 5) c3Node c3Ctx =
        [{ executionId := "e", data := 5
           metadata := recordSet [] (metaKey c3Node) 5 }] ∧
      processContext (fun _ _ => NodeResult.nullish) c3Node c3Ctx = [] :=
  ⟨((C3_fanout_preserves_outcomes (fun _ _ => NodeResult.list [7, 8])
      c3Node c3Ctx).1 [7, 8] rfl).2.1 1 8 rfl,
    ((C3_fanout_preserves_outcomes (fun _ _ => NodeResult.list [7, 8])
      c3Node c3Ctx).1 [7, 8] rfl).2.2,
    (C3_fanout_preserves_outcomes (fun _ _ => NodeResult.single 5)
      c3Node c3Ctx).2.1 5 rfl,
    (C3_fanout_preserves_outcomes (fun _ _ => NodeResult.nullish)
      c3Node c3Ctx).2.2 rfl⟩

theorem processContext_of_errored {α : Type}
    (exec : WorkflowNode → WorkflowExecutionContext α → NodeResult α)
    (node : WorkflowNode) (c : WorkflowExecutionContext α)
    (h : (exec node c).isErrored = true) :
    processContext exec node c = [] := by
  cases hres : exec node c with
  | errored m => simp [processContext, hres]
  | list xs => rw [hres] at h; simp [NodeResult.isErrored] at h
  | single x => rw [hres] at h; simp [NodeResult.isErrored] at h
  | nullish => rw [hres] at h; simp [NodeResult.isErrored] at h

/-- C4: a per-context error is isolated.  A context whose `executeNode`
call throws contributes nothing to the next generation, while every
other context of the same generation is processed normally — the next
generation is exactly the one produced by the non-failing contexts — and
the error never reaches the caller: whenever the sort succeeds the run
still ends with a `completed` return, never `failed`. -/
theorem C4_context_error_isolated {α : Type}
    (exec : WorkflowNode → WorkflowExecutionContext α → NodeResult α) :
    (∀ (node : WorkflowNode) (ctxs : List (WorkflowExecutionContext α)),
      stepNode exec node ctxs =
        stepNode exec node
          (ctxs.filter (fun c => (exec node c).isErrored = false))) ∧
    (∀ (nodes sorted) (execId : String) (td : Option α) (e : α),
      topologicalSort nodes = .ok sorted →
      (executeWorkflow true execId exec nodes td e).outcome =
          .returned "completed" ∧
        (executeWorkflow true execId exec nodes td e).dbOps.getLast? =
          some (completedWrite
            (execLoop exec sorted [rootContext execId td e]).1)) := by
  constructor
  · intro node ctxs
    induction ctxs with
    | nil => rfl
    | cons c cs ih =>
      cases he : (exec node c).isErrored with
      | true =>
        simp only [stepNode, List.flatMap_cons, List.filter_cons, he,
          processContext_of_errored exec node c he, List.nil_append]
        exact ih
      | false =>
        simp only [stepNode, List.flatMap_cons, List.filter_cons, he]
        simp only [stepNode] at ih
        simp [ih]
  · intro nodes sorted execId td e hsort
    simp [executeWorkflow, hsort]

/-- C8: with a successful initial insert, the persisted record is created
as `running` without `completed_at` and then receives exactly one
terminal update — `completed` or `failed` — which is the only write that
sets `completed_at`; nothing ever follows a terminal status. -/
theorem C8_record_lifecycle {α : Type} (execId : String)
    (exec : WorkflowNode → WorkflowExecutionContext α → NodeResult α)
    (nodes : List WorkflowNode) (td : Option α) (e : α) :
    ∃ w, (executeWorkflow true execId exec nodes td e).dbOps =
        [insertWrite α, w] ∧
      w.kind = "update" ∧ (w.status = "completed" ∨ w.status = "failed") ∧
      w.completedAtSet = true ∧
      (insertWrite α).status = "running" ∧
      (insertWrite α).completedAtSet = false := by
  cases hsort : topologicalSort nodes with
  | error msg =>
    exact ⟨failedWrite α msg, by simp [executeWorkflow, hsort], rfl,
      Or.inr rfl, rfl, rfl, rfl⟩
  | ok sorted =>
    exact ⟨completedWrite (execLoop exec sorted
        [rootContext execId td e]).1,
      by simp [executeWorkflow, hsort], rfl, Or.inl rfl, rfl, rfl, rfl⟩

/-- C9: an empty next generation stops the run early — executing the
remaining nodes changes nothing — and the run still ends normally: the
terminal store write is the `completed` update carrying the final context
count and the list of final payload bodies. -/
theorem C9_empty_generation_stops_early {α : Type}
    (exec : WorkflowNode → WorkflowExecutionContext α → NodeResult α)
    (node : WorkflowNode) (rest : List WorkflowNode)
    (ctxs : List (WorkflowExecutionContext α))
    (nodes sorted : List WorkflowNode) (execId : String) (td : Option α)
    (e : α) (hempty : stepNode exec node ctxs = [])
    (hsort : topologicalSort nodes = .ok sorted) :
    execLoop exec (node :: rest) ctxs = execLoop exec [node] ctxs ∧
      (executeWorkflow true execId exec nodes td e).dbOps =
        [insertWrite α,
          completedWrite (execLoop exec sorted [rootContext execId td e]).1] ∧
      (completedWrite (execLoop exec sorted [rootContext execId td e]).1).status =
        "completed" ∧
      (completedWrite (execLoop exec sorted [rootContext execId td e]).1).result =
        some ((execLoop exec sorted [rootContext execId td e]).1.length,
          (execLoop exec sorted [rootContext execId td e]).1.map
            (fun c => c.data)) ∧
      (executeWorkflow true execId exec nodes td e).outcome =
        .returned "completed" := by
  refine ⟨?_, by simp [executeWorkflow, hsort], rfl, rfl,
    by simp [executeWorkflow, hsort]⟩
  simp [execLoop, hempty]

/-- A trivial one-trigger graph used by concrete witnesses. -/
def trivNode : WorkflowNode :=
  { id := "t", type := "trigger", label := "T"
    config := { filters := [] }, connected := [] }

/-- The node list of the trivial graph. -/
def trivNodes : List WorkflowNode := [trivNode]

/-- A concrete executor that throws exactly for the context with id `b`. -/
def c4Exec : WorkflowNode → WorkflowExecutionContext Nat → NodeResult Nat :=
  fun _ c => if c.executionId = "b" then .errored "boom" else .single c.data

/-- The three-context generation of the C4 witness. -/
def c4Ctxs : List (WorkflowExecutionContext Nat) :=
  [{ executionId := "a", data := 1, metadata := [] },
   { executionId := "b", data := 2, metadata := [] },
   { executionId := "c", data := 3, metadata := [] }]

/-- Witness for C4: one of three contexts throws, the generation equals
the one of the two survivors, and a run with this executor completes. -/
theorem C4_witness :
    stepNode c4Exec trivNode c4Ctxs =
        stepNode c4Exec trivNode
          (c4Ctxs.filter (fun c => (c4Exec trivNode c).isErrored = false)) ∧
      (executeWorkflow true "e" c4Exec trivNodes none 0).outcome =
          .returned "completed" ∧
        (executeWorkflow true "e" c4Exec trivNodes none 0).dbOps.getLast? =
          some (completedWrite
            (execLoop c4Exec [trivNode] [rootContext "e" none 0]).1) :=
  ⟨(C4_context_error_isolated c4Exec).1 trivNode c4Ctxs,
    (C4_context_error_isolated c4Exec).2 trivNodes [trivNode] "e" none 0 rfl⟩

/-- A concrete executor that always returns `null`. -/
def c9Exec : WorkflowNode → WorkflowExecutionContext Nat → NodeResult Nat :=
  fun _ _ => .nullish

/-- Witness for C9: an all-dropping node empties the generation; the rest
of the pipeline is skipped and the run completes with count 0. -/
theorem C9_witness :
    execLoop c9Exec (trivNode :: [trivNode]) c4Ctxs =
        execLoop c9Exec [trivNode] c4Ctxs ∧
      (executeWorkflow true "e" c9Exec trivNodes none 0).dbOps =
        [insertWrite Nat,
          completedWrite (execLoop c9Exec [trivNode] [rootContext "e" none 0]).1] ∧
      (completedWrite (execLoop c9Exec [trivNode] [rootContext "e" none 0]).1).status =
        "completed" ∧
      (completedWrite (execLoop c9Exec [trivNode] [rootContext "e" none 0]).1).result =
        some ((execLoop c9Exec [trivNode] [rootContext "e" none 0]).1.length,
          (execLoop c9Exec [trivNode] [rootContext "e" none 0]).1.map
            (fun c => c.data)) ∧
      (executeWorkflow true "e" c9Exec trivNodes none 0).outcome =
        .returned "completed" :=
  C9_empty_generation_stops_early c9Exec trivNode [trivNode] c4Ctxs
    trivNodes [trivNode] "e" none 0 rfl rfl

/-- The trigger node of the claimed end-to-end workflow. -/
def nodeT : WorkflowNode :=
  { id := "t", type := "trigger", label := "Trigger"
    config := { filters := [] }, connected := ["d"] }

/-- The discovery node of the claimed end-to-end workflow. -/
def nodeD : WorkflowNode :=
  { id := "d", type := "news-discovery", label := "Discovery"
    config := { filters := [] }, connected := ["f"] }

/-- The keyword-filter node of the claimed end-to-end workflow. -/
def nodeF : WorkflowNode :=
  { id := "f", type := "filter", label := "Filter"
    config := { filters := [FilterRule.keyword "launch"] }
    connected := ["p"] }

/-- The publisher node of the claimed end-to-end workflow. -/
def nodeP : WorkflowNode :=
  { id := "p", type := "publisher", label := "Publisher"
    config := { filters := [] }, connected := [] }

/-- The node list of the claimed end-to-end workflow. -/
def c2Nodes : List WorkflowNode := [nodeT, nodeD, nodeF, nodeP]

/-- The executor of the end-to-end run: each handler behaves as in the
source with the remote collaborators stubbed — the trigger passes its
data through, discovery returns the claim's two items (as the source
does, tagged with `source_type` and the execution context), the filter
is the source's `executeFilterNode`, and the publisher returns the
context data merged with the created article. -/
def c2Exec (node : WorkflowNode) (ctx : WorkflowExecutionContext Payload) :
    NodeResult Payload :=
  match node.type with
  | "trigger" => .single ctx.data
  | "news-discovery" =>
    .list (([{ title := some "Product launch today" },
             { title := some "Weather update" }] : List Payload).map
      (fun a => { a with source_type := some "news_discovery"
                         execution_context := some ctx.executionId }))
  | "filter" =>
    match executeFilterNode dateParseStub node ctx with
    | some d => .single d
    | none => .nullish
  | "publisher" =>
    .single { ctx.data with published_article := some "article-1"
                            execution_context := some ctx.executionId }
  | _ => .single ctx.data

/-- C2, evaluated at the claimed input: the sort emits the nodes in
post-order — publisher first, trigger last — so the run invokes the
publisher once on the seeded (empty) root payload, the keyword filter
then drops that branch, the discovery stub is never invoked, and the run
completes with zero final payloads: not the claimed single "launch"
payload published once. -/
theorem C2_run_divergence :
    topologicalSort c2Nodes = .ok [nodeP, nodeF, nodeD, nodeT] ∧
      (executeWorkflow true "e" c2Exec c2Nodes none {}).invocations =
        [("p", "e"), ("f", "e")] ∧
      (executeWorkflow true "e" c2Exec c2Nodes none {}).dbOps =
        [insertWrite Payload,
          completedWrite ([] : List (WorkflowExecutionContext Payload))] ∧
      (executeWorkflow true "e" c2Exec c2Nodes none {}).outcome =
        .returned "completed" :=
  ⟨rfl, rfl, rfl, rfl⟩

/-- The trigger of the concrete cyclic graph. -/
def cycTrigger : WorkflowNode :=
  { id := "t", type := "trigger", label := "T"
    config := { filters := [] }, connected := ["a"] }

/-- The self-looping node of the concrete cyclic graph. -/
def cycSelf : WorkflowNode :=
  { id := "a", type := "x", label := "A"
    config := { filters := [] }, connected := ["a"] }

/-- A concrete graph with a cycle reachable from its trigger. -/
def cycNodes : List WorkflowNode := [cycTrigger, cycSelf]

/-- C6 counterexample: on a concrete cyclic workflow the run does update
the persisted record to `failed` (the cycle error is caught by the
top-level handler and recorded) before rethrowing — refuting the claim
that the record is not updated to `failed` — while indeed no execution
context is ever created. -/
theorem C6_counterexample :
    (executeWorkflow true "e" c2Exec cycNodes none ({} : Payload)).dbOps =
        [insertWrite Payload, failedWrite Payload cycleErrorMsg] ∧
      (executeWorkflow true "e" c2Exec cycNodes none ({} : Payload)).generations = [] ∧
      (executeWorkflow true "e" c2Exec cycNodes none ({} : Payload)).outcome =
        .thrown cycleErrorMsg :=
  ⟨rfl, rfl, rfl⟩

/-- C6 (amended): when `topologicalSort` throws its cycle error, the run
aborts before any execution context is created, with the persisted record
receiving exactly one update — to status `failed` with the cycle error
message — before the error is rethrown to the caller. -/
theorem C6_cycle_error_recorded_failed {α : Type} (nodes : List WorkflowNode)
    (msg execId : String)
    (exec : WorkflowNode → WorkflowExecutionContext α → NodeResult α)
    (td : Option α) (e : α) (hsort : topologicalSort nodes = .error msg) :
    executeWorkflow true execId exec nodes td e =
      { dbOps := [insertWrite α, failedWrite α msg]
        invocations := [], generations := [], outcome := .thrown msg } := by
  simp [executeWorkflow, hsort]

/-- Witness for the amended C6 at the concrete cyclic graph. -/
theorem C6_witness :
    topologicalSort cycNodes = .error cycleErrorMsg ∧
      executeWorkflow true "e" c2Exec cycNodes none ({} : Payload) =
        { dbOps := [insertWrite Payload, failedWrite Payload cycleErrorMsg]
          invocations := [], generations := []
          outcome := .thrown cycleErrorMsg } :=
  ⟨rfl, C6_cycle_error_recorded_failed cycNodes cycleErrorMsg "e" c2Exec
    none {} rfl⟩

/-- What one successful `visit` call preserves structurally: the visiting
path is restored, the output only grows at the end, visited ids are
never forgotten. -/
def StExt (st st' : SortState) : Prop :=
  st'.visiting = st.visiting ∧ st.sorted <+: st'.sorted ∧
    ∀ x ∈ st.visited, x ∈ st'.visited

theorem stExt_refl (st : SortState) : StExt st st :=
  ⟨rfl, List.prefix_refl _, fun _ h => h⟩

theorem stExt_trans {s1 s2 s3 : SortState} (h12 : StExt s1 s2)
    (h23 : StExt s2 s3) : StExt s1 s3 :=
  ⟨h23.1.trans h12.1, h12.2.1.trans h23.2.1,
    fun x hx => h23.2.2 x (h12.2.2 x hx)⟩

theorem visiting_append_erase (l : List String) (a : String) (h : a ∉ l) :
    (l ++ [a]).erase a = l := by
  rw [List.erase_append_right _ h, List.erase_cons_head, List.append_nil]

theorem findNode_eq_id {nodes : List WorkflowNode} {id : String}
    {n : WorkflowNode} (h : findNode nodes id = some n) :
    n.id = id ∧ n ∈ nodes := by
  have h1 := List.find?_some h
  have h2 := List.mem_of_find?_eq_some h
  simp only [beq_iff_eq] at h1
  exact ⟨h1, h2⟩

theorem visitStep_visiting {nodes : List WorkflowNode}
    {rec : String → SortState → Except String SortState} {id : String}
    {st : SortState} (h1 : id ∈ st.visiting) :
    visitStep nodes rec id st = .error cycleErrorMsg := by
  unfold visitStep
  rw [if_pos h1]

theorem visitStep_visited {nodes : List WorkflowNode}
    {rec : String → SortState → Except String SortState} {id : String}
    {st : SortState} (h1 : id ∉ st.visiting) (h2 : id ∈ st.visited) :
    visitStep nodes rec id st = .ok st := by
  unfold visitStep
  rw [if_neg h1, if_pos h2]

theorem visitStep_found {nodes : List WorkflowNode}
    {rec : String → SortState → Except String SortState} {id : String}
    {st : SortState} {node : WorkflowNode} (h1 : id ∉ st.visiting)
    (h2 : id ∉ st.visited) (hfind : findNode nodes id = some node) :
    visitStep nodes rec id st =
      match exceptFold rec node.connected
          { st with visiting := st.visiting ++ [id] } with
      | .error e => .error e
      | .ok st2 =>
        .ok { sorted := st2.sorted ++ [node], visited := st2.visited ++ [id]
              visiting := st2.visiting.erase id } := by
  unfold visitStep
  rw [if_neg h1, if_neg h2, hfind]

theorem visitStep_notFound {nodes : List WorkflowNode}
    {rec : String → SortState → Except String SortState} {id : String}
    {st : SortState} (h1 : id ∉ st.visiting) (h2 : id ∉ st.visited)
    (hfind : findNode nodes id = none) :
    visitStep nodes rec id st =
      .ok { st with visiting := (st.visiting ++ [id]).erase id } := by
  unfold visitStep
  rw [if_neg h1, if_neg h2, hfind]

theorem exceptFold_ext {f : String → SortState → Except String SortState}
    (hf : ∀ id st st', f id st = .ok st' → StExt st st') :
    ∀ (cs : List String) (st st' : SortState),
      exceptFold f cs st = .ok st' → StExt st st' := by
  intro cs
  induction cs with
  | nil =>
    intro st st' h
    simp only [exceptFold] at h
    cases h
    exact stExt_refl _
  | cons c cs ih =>
    intro st st' h
    simp only [exceptFold] at h
    cases hc : f c st with
    | error e => rw [hc] at h; exact absurd h (by simp)
    | ok s1 =>
      rw [hc] at h
      exact stExt_trans (hf c st s1 hc) (ih s1 st' h)

theorem visitF_ext (nodes : List WorkflowNode) :
    ∀ (fuel : Nat) (id : String) (st st' : SortState),
      visitF nodes fuel id st = .ok st' → StExt st st' := by
  intro fuel
  induction fuel with
  | zero =>
    intro id st st' h
    simp [visitF] at h
  | succ f ih =>
    intro id st st' h
    simp only [visitF] at h
    by_cases h1 : id ∈ st.visiting
    · rw [visitStep_visiting h1] at h
      exact absurd h (by simp)
    · by_cases h2 : id ∈ st.visited
      · rw [visitStep_visited h1 h2] at h
        cases h
        exact stExt_refl _
      · cases hfind : findNode nodes id with
        | some node =>
          rw [visitStep_found h1 h2 hfind] at h
          cases hfold : exceptFold (visitF nodes f) node.connected
              { st with visiting := st.visiting ++ [id] } with
          | error e => rw [hfold] at h; exact absurd h (by simp)
          | ok s2 =>
            rw [hfold] at h
            cases h
            have hext := exceptFold_ext ih node.connected _ s2 hfold
            refine ⟨?_, ?_, ?_⟩
            · show s2.visiting.erase id = st.visiting
              rw [hext.1]
              exact visiting_append_erase st.visiting id h1
            · exact hext.2.1.trans (List.prefix_append _ _)
            · intro x hx
              exact List.mem_append_left _ (hext.2.2 x hx)
        | none =>
          rw [visitStep_notFound h1 h2 hfind] at h
          cases h
          refine ⟨?_, List.prefix_refl _, fun x hx => hx⟩
          show (st.visiting ++ [id]).erase id = st.visiting
          exact visiting_append_erase st.visiting id h1

/-- The ids of the nodes actually present in the list. -/
def existingIds (nodes : List WorkflowNode) : Finset String :=
  (nodes.map (fun n => n.id)).toFinset

/-- Recursion-depth measure of the DFS: the number of present ids not yet
on the visiting path. -/
def sortMeasure (nodes : List WorkflowNode) (st : SortState) : Nat :=
  (existingIds nodes \ st.visiting.toFinset).card

theorem sortMeasure_visiting_congr (nodes : List WorkflowNode)
    (st st' : SortState) (h : st'.visiting = st.visiting) :
    sortMeasure nodes st' = sortMeasure nodes st := by
  simp [sortMeasure, h]

theorem sortMeasure_push (nodes : List WorkflowNode) (st : SortState)
    (id : String) (hid : id ∈ existingIds nodes) (hnot : id ∉ st.visiting) :
    sortMeasure nodes { st with visiting := st.visiting ++ [id] } + 1 =
      sortMeasure nodes st := by
  have hv : (st.visiting ++ [id]).toFinset =
      insert id st.visiting.toFinset := by
    rw [List.toFinset_append]
    ext x
    simp [or_comm]
  show ((existingIds nodes) \ (st.visiting ++ [id]).toFinset).card + 1 = _
  rw [hv, Finset.sdiff_insert]
  exact Finset.card_erase_add_one
    (Finset.mem_sdiff.mpr ⟨hid, fun hc => hnot (List.mem_toFinset.mp hc)⟩)

theorem visitF_post (nodes : List WorkflowNode) (fuel : Nat) (id : String)
    (st st' : SortState) (h : visitF nodes fuel id st = .ok st')
    (hfind : (findNode nodes id).isSome) : id ∈ st'.visited := by
  cases fuel with
  | zero => simp [visitF] at h
  | succ f =>
    simp only [visitF] at h
    by_cases h1 : id ∈ st.visiting
    · rw [visitStep_visiting h1] at h
      exact absurd h (by simp)
    · by_cases h2 : id ∈ st.visited
      · rw [visitStep_visited h1 h2] at h
        cases h
        exact h2
      · cases hf : findNode nodes id with
        | none => rw [hf] at hfind; simp at hfind
        | some node =>
          rw [visitStep_found h1 h2 hf] at h
          cases hfold : exceptFold (visitF nodes f) node.connected
              { st with visiting := st.visiting ++ [id] } with
          | error e => rw [hfold] at h; exact absurd h (by simp)
          | ok s2 =>
            rw [hfold] at h
            cases h
            exact List.mem_append_right _ (List.mem_singleton.mpr rfl)

theorem exceptFold_post (nodes : List WorkflowNode) (fuel : Nat) :
    ∀ (cs : List String) (st st' : SortState),
      exceptFold (visitF nodes fuel) cs st = .ok st' →
      ∀ c ∈ cs, (findNode nodes c).isSome → c ∈ st'.visited := by
  intro cs
  induction cs with
  | nil => intro st st' h c hc; simp at hc
  | cons c0 cs ih =>
    intro st st' h c hc hfind
    simp only [exceptFold] at h
    cases hc0 : visitF nodes fuel c0 st with
    | error e => rw [hc0] at h; exact absurd h (by simp)
    | ok s1 =>
      rw [hc0] at h
      rcases List.mem_cons.mp hc with rfl | hc
      · exact (exceptFold_ext (visitF_ext nodes fuel) cs s1 st' h).2.2 c
          (visitF_post nodes fuel c st s1 hc0 hfind)
      · exact ih s1 st' h c hc hfind

theorem visitF_total (nodes : List WorkflowNode) (hac : Acyclic nodes) :
    ∀ (fuel : Nat) (id : String) (st : SortState),
      sortMeasure nodes st + 1 ≤ fuel →
      (∀ w ∈ st.visiting, Relation.TransGen (edgeF nodes) w id) →
      ∃ st', visitF nodes fuel id st = .ok st' := by
  intro fuel
  induction fuel with
  | zero => intro id st hfuel _; omega
  | succ f ih =>
    intro id st hfuel hpath
    simp only [visitF]
    by_cases h1 : id ∈ st.visiting
    · exact absurd (hpath id h1) (hac id)
    · by_cases h2 : id ∈ st.visited
      · exact ⟨st, visitStep_visited h1 h2⟩
      · cases hfind : findNode nodes id with
        | none => exact ⟨_, visitStep_notFound h1 h2 hfind⟩
        | some node =>
          obtain ⟨hnid, hnmem⟩ := findNode_eq_id hfind
          have hid_ex : id ∈ existingIds nodes := by
            rw [← hnid]
            exact List.mem_toFinset.mpr (List.mem_map_of_mem _ hnmem)
          have hmeas := sortMeasure_push nodes st id hid_ex h1
          have inner : ∀ (cs : List String), (∀ c ∈ cs, c ∈ node.connected) →
              ∀ s : SortState, s.visiting = st.visiting ++ [id] →
              ∃ s', exceptFold (visitF nodes f) cs s = .ok s' := by
            intro cs
            induction cs with
            | nil => intro _ s _; exact ⟨s, rfl⟩
            | cons c cs' ihc =>
              intro hsub s hvis
              have hedge : edgeF nodes id c :=
                ⟨node, hfind, hsub c (List.mem_cons_self c cs')⟩
              have hpath_c : ∀ w ∈ s.visiting,
                  Relation.TransGen (edgeF nodes) w c := by
                rw [hvis]
                intro w hw
                rcases List.mem_append.mp hw with hw | hw
                · exact (hpath w hw).tail hedge
                · rw [List.mem_singleton.mp hw]
                  exact Relation.TransGen.single hedge
              have hfuel_c : sortMeasure nodes s + 1 ≤ f := by
                have := sortMeasure_visiting_congr nodes
                  { st with visiting := st.visiting ++ [id] } s hvis
                omega
              obtain ⟨s1, hs1⟩ := ih c s hfuel_c hpath_c
              have hvis1 : s1.visiting = st.visiting ++ [id] := by
                rw [(visitF_ext nodes f c s s1 hs1).1, hvis]
              obtain ⟨s', hs'⟩ :=
                ihc (fun c' hc' => hsub c' (List.mem_cons_of_mem c hc')) s1 hvis1
              exact ⟨s', by simp [exceptFold, hs1, hs']⟩
          obtain ⟨st2, hst2⟩ :=
            inner node.connected (fun c h => h)
              { st with visiting := st.visiting ++ [id] } rfl
          rw [visitStep_found h1 h2 hfind, hst2]
          exact ⟨_, rfl⟩

theorem visitF_ok_or_cycle (nodes : List WorkflowNode) :
    ∀ (fuel : Nat) (id : String) (st : SortState),
      sortMeasure nodes st + 1 ≤ fuel →
      (∃ st', visitF nodes fuel id st = .ok st') ∨
        visitF nodes fuel id st = .error cycleErrorMsg := by
  intro fuel
  induction fuel with
  | zero => intro id st hfuel; omega
  | succ f ih =>
    intro id st hfuel
    simp only [visitF]
    by_cases h1 : id ∈ st.visiting
    · exact Or.inr (visitStep_visiting h1)
    · by_cases h2 : id ∈ st.visited
      · exact Or.inl ⟨st, visitStep_visited h1 h2⟩
      · cases hfind : findNode nodes id with
        | none => exact Or.inl ⟨_, visitStep_notFound h1 h2 hfind⟩
        | some node =>
          obtain ⟨hnid, hnmem⟩ := findNode_eq_id hfind
          have hid_ex : id ∈ existingIds nodes := by
            rw [← hnid]
            exact List.mem_toFinset.mpr (List.mem_map_of_mem _ hnmem)
          have hmeas := sortMeasure_push nodes st id hid_ex h1
          have inner : ∀ (cs : List String) (s : SortState),
              s.visiting = st.visiting ++ [id] →
              (∃ s', exceptFold (visitF nodes f) cs s = .ok s') ∨
                exceptFold (visitF nodes f) cs s = .error cycleErrorMsg := by
            intro cs
            induction cs with
            | nil => intro s _; exact Or.inl ⟨s, rfl⟩
            | cons c cs' ihc =>
              intro s hvis
              have hfuel_c : sortMeasure nodes s + 1 ≤ f := by
                have := sortMeasure_visiting_congr nodes
                  { st with visiting := st.visiting ++ [id] } s hvis
                omega
              rcases ih c s hfuel_c with ⟨s1, hs1⟩ | hbad
              · have hvis1 : s1.visiting = st.visiting ++ [id] := by
                  rw [(visitF_ext nodes f c s s1 hs1).1, hvis]
                rcases ihc s1 hvis1 with ⟨s', hs'⟩ | hbad'
                · exact Or.inl ⟨s', by simp [exceptFold, hs1, hs']⟩
                · exact Or.inr (by simp [exceptFold, hs1, hbad'])
              · exact Or.inr (by simp [exceptFold, hbad])
          rw [visitStep_found h1 h2 hfind]
          rcases inner node.connected
              { st with visiting := st.visiting ++ [id] } rfl with
            ⟨st2, hst2⟩ | hbad
          · rw [hst2]
            exact Or.inl ⟨_, rfl⟩
          · rw [hbad]
            exact Or.inr rfl

/-- The post-order output read back to front is dependency-closed: every
present `connected` target of an emitted node was emitted before it. -/
def GoodStack (nodes : List WorkflowNode) : List WorkflowNode → Prop
  | [] => True
  | n :: rest =>
    (∀ c ∈ n.connected, (findNode nodes c).isSome →
      c ∈ rest.map (fun m => m.id)) ∧ GoodStack nodes rest

/-- The DFS state invariant: visited ids are exactly the emitted ids, the
emitted ids are pairwise distinct, the emitted list is dependency-closed
(`GoodStack` of its reverse), every emitted node is what the lookup of
its id resolves to, and no id is simultaneously on the visiting path and
visited. -/
def GoodSt (nodes : List WorkflowNode) (st : SortState) : Prop :=
  (∀ x, x ∈ st.visited ↔ x ∈ st.sorted.map (fun n => n.id)) ∧
  (st.sorted.map (fun n => n.id)).Nodup ∧
  GoodStack nodes st.sorted.reverse ∧
  (∀ n ∈ st.sorted, findNode nodes n.id = some n) ∧
  (∀ x ∈ st.visiting, x ∉ st.visited)

theorem exceptFold_good {nodes : List WorkflowNode}
    {f : String → SortState → Except String SortState}
    (hf : ∀ id st st', f id st = .ok st' → GoodSt nodes st → GoodSt nodes st') :
    ∀ (cs : List String) (st st' : SortState),
      exceptFold f cs st = .ok st' → GoodSt nodes st → GoodSt nodes st' := by
  intro cs
  induction cs with
  | nil =>
    intro st st' h hg
    simp only [exceptFold] at h
    cases h
    exact hg
  | cons c cs ih =>
    intro st st' h hg
    simp only [exceptFold] at h
    cases hc : f c st with
    | error e => rw [hc] at h; exact absurd h (by simp)
    | ok s1 =>
      rw [hc] at h
      exact ih s1 st' h (hf c st s1 hc hg)

theorem visitF_good (nodes : List WorkflowNode) :
    ∀ (fuel : Nat) (id : String) (st st' : SortState),
      visitF nodes fuel id st = .ok st' → GoodSt nodes st → GoodSt nodes st' := by
  intro fuel
  induction fuel with
  | zero => intro id st st' h _; simp [visitF] at h
  | succ f ih =>
    intro id st st' h hg
    simp only [visitF] at h
    by_cases h1 : id ∈ st.visiting
    · rw [visitStep_visiting h1] at h
      exact absurd h (by simp)
    · by_cases h2 : id ∈ st.visited
      · rw [visitStep_visited h1 h2] at h
        cases h
        exact hg
      · cases hfind : findNode nodes id with
        | none =>
          rw [visitStep_notFound h1 h2 hfind] at h
          cases h
          obtain ⟨g1, g2, g3, g4, g5⟩ := hg
          refine ⟨g1, g2, g3, g4, ?_⟩
          intro x hx
          rw [visiting_append_erase st.visiting id h1] at hx
          exact g5 x hx
        | some node =>
          obtain ⟨hnid, hnmem⟩ := findNode_eq_id hfind
          rw [visitStep_found h1 h2 hfind] at h
          cases hfold : exceptFold (visitF nodes f) node.connected
              { st with visiting := st.visiting ++ [id] } with
          | error e => rw [hfold] at h; exact absurd h (by simp)
          | ok s2 =>
            rw [hfold] at h
            cases h
            have hg1 : GoodSt nodes { st with visiting := st.visiting ++ [id] } := by
              obtain ⟨g1, g2, g3, g4, g5⟩ := hg
              refine ⟨g1, g2, g3, g4, ?_⟩
              intro x hx
              rcases List.mem_append.mp hx with hx | hx
              · exact g5 x hx
              · rw [List.mem_singleton.mp hx]
                exact h2
            have hg2 : GoodSt nodes s2 :=
              exceptFold_good (fun i a b hab => ih i a b hab)
                node.connected _ s2 hfold hg1
            obtain ⟨g1, g2, g3, g4, g5⟩ := hg2
            have hext := exceptFold_ext (visitF_ext nodes f)
              node.connected _ s2 hfold
            have hvis2 : s2.visiting = st.visiting ++ [id] := hext.1
            have hid_in_visiting : id ∈ s2.visiting := by
              rw [hvis2]
              exact List.mem_append_right _ (List.mem_singleton.mpr rfl)
            have hid_not_visited : id ∉ s2.visited := g5 id hid_in_visiting
            have hid_not_sorted : id ∉ s2.sorted.map (fun n => n.id) :=
              fun hc => hid_not_visited ((g1 id).mpr hc)
            refine ⟨?_, ?_, ?_, ?_, ?_⟩
            · intro x
              show x ∈ s2.visited ++ [id] ↔
                x ∈ (s2.sorted ++ [node]).map (fun n => n.id)
              rw [List.map_append, List.mem_append, List.mem_append, g1 x]
              simp [hnid]
            · show ((s2.sorted ++ [node]).map (fun n => n.id)).Nodup
              rw [List.map_append, List.nodup_append]
              refine ⟨g2, by simp, ?_⟩
              intro x hx hx'
              simp only [List.map_cons, List.map_nil, List.mem_singleton,
                hnid] at hx'
              subst hx'
              exact hid_not_sorted hx
            · show GoodStack nodes (s2.sorted ++ [node]).reverse
              rw [List.reverse_append]
              simp only [List.reverse_cons, List.reverse_nil,
                List.nil_append, List.singleton_append]
              refine ⟨?_, g3⟩
              intro c hc hfc
              rw [List.map_reverse, List.mem_reverse]
              rw [← g1 c]
              exact exceptFold_post nodes f node.connected _ s2 hfold c hc hfc
            · intro m hm
              rcases List.mem_append.mp hm with hm | hm
              · exact g4 m hm
              · rw [List.mem_singleton.mp hm, hnid]
                exact hfind
            · intro x hx
              show x ∉ s2.visited ++ [id]
              have hx' : x ∈ st.visiting := by
                have : x ∈ s2.visiting.erase id := hx
                have hsub := List.erase_subset (a := id) (l := s2.visiting)
                have := hsub this
                rw [hvis2] at this
                rcases List.mem_append.mp this with h' | h'
                · exact h'
                · exfalso
                  rw [List.mem_singleton.mp h'] at hx
                  rw [hvis2, visiting_append_erase st.visiting id h1] at hx
                  exact h1 hx
              intro hc
              rcases List.mem_append.mp hc with hc | hc
              · exact g5 x (by rw [hvis2]; exact List.mem_append_left _ hx') hc
              · rw [List.mem_singleton.mp hc] at hx'
                exact h1 hx'

theorem canReachCycle_step {nodes : List WorkflowNode} {a : String}
    (h : CanReachCycle nodes a) :
    ∃ b, edgeF nodes a b ∧ CanReachCycle nodes b := by
  obtain ⟨x, hreach, hcyc⟩ := h
  rcases Relation.ReflTransGen.cases_head hreach with heq | ⟨b, hab, hbx⟩
  · subst heq
    obtain ⟨b, hab, hbx⟩ := Relation.TransGen.head'_iff.mp hcyc
    exact ⟨b, hab, ⟨a, hbx, hcyc⟩⟩
  · exact ⟨b, hab, ⟨x, hbx, hcyc⟩⟩

theorem not_canReachCycle_of_notFound {nodes : List WorkflowNode}
    {c : String} (h : findNode nodes c = none) :
    ¬ CanReachCycle nodes c := by
  intro hc
  obtain ⟨b, ⟨n, hfind, _⟩, _⟩ := canReachCycle_step hc
  rw [h] at hfind
  exact Option.noConfusion hfind

/-- No id visited by a successful DFS call can reach a cycle. -/
def SafeSt (nodes : List WorkflowNode) (st : SortState) : Prop :=
  ∀ w ∈ st.visited, ¬ CanReachCycle nodes w

theorem exceptFold_safe {nodes : List WorkflowNode}
    {f : String → SortState → Except String SortState}
    (hf : ∀ id st st', f id st = .ok st' → SafeSt nodes st → SafeSt nodes st') :
    ∀ (cs : List String) (st st' : SortState),
      exceptFold f cs st = .ok st' → SafeSt nodes st → SafeSt nodes st' := by
  intro cs
  induction cs with
  | nil =>
    intro st st' h hs
    simp only [exceptFold] at h
    cases h
    exact hs
  | cons c cs ih =>
    intro st st' h hs
    simp only [exceptFold] at h
    cases hc : f c st with
    | error e => rw [hc] at h; exact absurd h (by simp)
    | ok s1 =>
      rw [hc] at h
      exact ih s1 st' h (hf c st s1 hc hs)

theorem visitF_safe (nodes : List WorkflowNode) :
    ∀ (fuel : Nat) (id : String) (st st' : SortState),
      visitF nodes fuel id st = .ok st' → SafeSt nodes st → SafeSt nodes st' := by
  intro fuel
  induction fuel with
  | zero => intro id st st' h _; simp [visitF] at h
  | succ f ih =>
    intro id st st' h hs
    simp only [visitF] at h
    by_cases h1 : id ∈ st.visiting
    · rw [visitStep_visiting h1] at h
      exact absurd h (by simp)
    · by_cases h2 : id ∈ st.visited
      · rw [visitStep_visited h1 h2] at h
        cases h
        exact hs
      · cases hfind : findNode nodes id with
        | none =>
          rw [visitStep_notFound h1 h2 hfind] at h
          cases h
          exact hs
        | some node =>
          rw [visitStep_found h1 h2 hfind] at h
          cases hfold : exceptFold (visitF nodes f) node.connected
              { st with visiting := st.visiting ++ [id] } with
          | error e => rw [hfold] at h; exact absurd h (by simp)
          | ok s2 =>
            rw [hfold] at h
            cases h
            have hs2 : SafeSt nodes s2 :=
              exceptFold_safe (fun i a b hab => ih i a b hab)
                node.connected _ s2 hfold hs
            intro w hw
            rcases List.mem_append.mp hw with hw | hw
            · exact hs2 w hw
            · rw [List.mem_singleton.mp hw]
              intro hcr
              obtain ⟨c, hedge, hcrc⟩ := canReachCycle_step hcr
              obtain ⟨n', hfind', hc⟩ := hedge
              rw [hfind] at hfind'
              cases hfind'
              cases hfc : findNode nodes c with
              | none => exact not_canReachCycle_of_notFound hfc hcrc
              | some m =>
                have : c ∈ s2.visited :=
                  exceptFold_post nodes f node.connected _ s2 hfold c hc
                    (by rw [hfc]; rfl)
                exact hs2 c this hcrc

theorem remainingFold_ext {f : String → SortState → Except String SortState}
    (hf : ∀ id st st', f id st = .ok st' → StExt st st') :
    ∀ (ns : List WorkflowNode) (st st' : SortState),
      remainingFold f ns st = .ok st' → StExt st st' := by
  intro ns
  induction ns with
  | nil =>
    intro st st' h
    simp only [remainingFold] at h
    cases h
    exact stExt_refl _
  | cons n ns ih =>
    intro st st' h
    simp only [remainingFold] at h
    by_cases hv : n.id ∈ st.visited
    · rw [if_pos hv] at h
      exact ih st st' h
    · rw [if_neg hv] at h
      cases hc : f n.id st with
      | error e => rw [hc] at h; exact absurd h (by simp)
      | ok s1 =>
        rw [hc] at h
        exact stExt_trans (hf n.id st s1 hc) (ih s1 st' h)

theorem remainingFold_good {nodes : List WorkflowNode}
    {f : String → SortState → Except String SortState}
    (hf : ∀ id st st', f id st = .ok st' → GoodSt nodes st → GoodSt nodes st') :
    ∀ (ns : List WorkflowNode) (st st' : SortState),
      remainingFold f ns st = .ok st' → GoodSt nodes st → GoodSt nodes st' := by
  intro ns
  induction ns with
  | nil =>
    intro st st' h hg
    simp only [remainingFold] at h
    cases h
    exact hg
  | cons n ns ih =>
    intro st st' h hg
    simp only [remainingFold] at h
    by_cases hv : n.id ∈ st.visited
    · rw [if_pos hv] at h
      exact ih st st' h hg
    · rw [if_neg hv] at h
      cases hc : f n.id st with
      | error e => rw [hc] at h; exact absurd h (by simp)
      | ok s1 =>
        rw [hc] at h
        exact ih s1 st' h (hf n.id st s1 hc hg)

theorem remainingFold_post (nodes : List WorkflowNode) (fuel : Nat) :
    ∀ (ns : List WorkflowNode) (st st' : SortState),
      remainingFold (visitF nodes fuel) ns st = .ok st' →
      ∀ n ∈ ns, (findNode nodes n.id).isSome → n.id ∈ st'.visited := by
  intro ns
  induction ns with
  | nil => intro st st' h n hn; simp at hn
  | cons n0 ns ih =>
    intro st st' h n hn hfind
    simp only [remainingFold] at h
    by_cases hv : n0.id ∈ st.visited
    · rw [if_pos hv] at h
      rcases List.mem_cons.mp hn with rfl | hn
      · exact (remainingFold_ext (visitF_ext nodes fuel) ns st st' h).2.2 _ hv
      · exact ih st st' h n hn hfind
    · rw [if_neg hv] at h
      cases hc : visitF nodes fuel n0.id st with
      | error e => rw [hc] at h; exact absurd h (by simp)
      | ok s1 =>
        rw [hc] at h
        rcases List.mem_cons.mp hn with rfl | hn
        · exact (remainingFold_ext (visitF_ext nodes fuel) ns s1 st' h).2.2 _
            (visitF_post nodes fuel n.id st s1 hc hfind)
        · exact ih s1 st' h n hn hfind

theorem exceptFold_visit_total (nodes : List WorkflowNode)
    (hac : Acyclic nodes) (fuel : Nat) :
    ∀ (cs : List String) (st : SortState), st.visiting = [] →
      sortMeasure nodes st + 1 ≤ fuel →
      ∃ st', exceptFold (visitF nodes fuel) cs st = .ok st' := by
  intro cs
  induction cs with
  | nil => intro st _ _; exact ⟨st, rfl⟩
  | cons c cs ih =>
    intro st hvis hfuel
    obtain ⟨s1, hs1⟩ := visitF_total nodes hac fuel c st hfuel
      (by rw [hvis]; intro w hw; simp at hw)
    have hvis1 : s1.visiting = [] := by
      rw [(visitF_ext nodes fuel c st s1 hs1).1, hvis]
    have hfuel1 : sortMeasure nodes s1 + 1 ≤ fuel := by
      have : sortMeasure nodes s1 = sortMeasure nodes st := by
        simp [sortMeasure, hvis1, hvis]
      omega
    obtain ⟨s', hs'⟩ := ih s1 hvis1 hfuel1
    exact ⟨s', by simp [exceptFold, hs1, hs']⟩

theorem exceptFold_visit_ok_or_cycle (nodes : List WorkflowNode) (fuel : Nat) :
    ∀ (cs : List String) (st : SortState),
      sortMeasure nodes st + 1 ≤ fuel →
      (∃ st', exceptFold (visitF nodes fuel) cs st = .ok st') ∨
        exceptFold (visitF nodes fuel) cs st = .error cycleErrorMsg := by
  intro cs
  induction cs with
  | nil => intro st _; exact Or.inl ⟨st, rfl⟩
  | cons c cs ih =>
    intro st hfuel
    rcases visitF_ok_or_cycle nodes fuel c st hfuel with ⟨s1, hs1⟩ | hbad
    · have hfuel1 : sortMeasure nodes s1 + 1 ≤ fuel := by
        have := sortMeasure_visiting_congr nodes
          st s1 (visitF_ext nodes fuel c st s1 hs1).1
        omega
      rcases ih s1 hfuel1 with ⟨s', hs'⟩ | hbad'
      · exact Or.inl ⟨s', by simp [exceptFold, hs1, hs']⟩
      · exact Or.inr (by simp [exceptFold, hs1, hbad'])
    · exact Or.inr (by simp [exceptFold, hbad])

theorem remainingFold_total (nodes : List WorkflowNode)
    (hac : Acyclic nodes) (fuel : Nat) :
    ∀ (ns : List WorkflowNode) (st : SortState), st.visiting = [] →
      sortMeasure nodes st + 1 ≤ fuel →
      ∃ st', remainingFold (visitF nodes fuel) ns st = .ok st' := by
  intro ns
  induction ns with
  | nil => intro st _ _; exact ⟨st, rfl⟩
  | cons n ns ih =>
    intro st hvis hfuel
    by_cases hv : n.id ∈ st.visited
    · obtain ⟨s', hs'⟩ := ih st hvis hfuel
      exact ⟨s', by simp [remainingFold, hv, hs']⟩
    · obtain ⟨s1, hs1⟩ := visitF_total nodes hac fuel n.id st hfuel
        (by rw [hvis]; intro w hw; simp at hw)
      have hvis1 : s1.visiting = [] := by
        rw [(visitF_ext nodes fuel n.id st s1 hs1).1, hvis]
      have hfuel1 : sortMeasure nodes s1 + 1 ≤ fuel := by
        have : sortMeasure nodes s1 = sortMeasure nodes st := by
          simp [sortMeasure, hvis1, hvis]
        omega
      obtain ⟨s', hs'⟩ := ih s1 hvis1 hfuel1
      exact ⟨s', by simp [remainingFold, hv, hs1, hs']⟩

theorem findNode_self :
    ∀ (nodes : List WorkflowNode),
      (nodes.map (fun n => n.id)).Nodup →
      ∀ n ∈ nodes, findNode nodes n.id = some n := by
  intro nodes
  induction nodes with
  | nil => intro _ n hn; simp at hn
  | cons m ms ih =>
    intro hnd n hn
    simp only [List.map_cons, List.nodup_cons] at hnd
    rcases List.mem_cons.mp hn with rfl | hn
    · unfold findNode
      rw [List.find?_cons_of_pos _ (by simp)]
    · have hne : (m.id == n.id) = false := by
        simp only [beq_eq_false_iff_ne, ne_eq]
        intro he
        exact hnd.1 (he ▸ List.mem_map_of_mem _ hn)
      unfold findNode
      rw [List.find?_cons_of_neg _ (by simp [hne])]
      exact ih hnd.2 n hn

theorem goodStack_split (nodes : List WorkflowNode) :
    ∀ (L₁ : List WorkflowNode) (n : WorkflowNode) (L₂ : List WorkflowNode),
      GoodStack nodes (L₁ ++ n :: L₂) →
      ∀ c ∈ n.connected, (findNode nodes c).isSome →
        c ∈ L₂.map (fun m => m.id) := by
  intro L₁
  induction L₁ with
  | nil => intro n L₂ h c hc hf; exact h.1 c hc hf
  | cons a L₁ ih => intro n L₂ h c hc hf; exact ih n L₂ h.2 c hc hf

theorem goodSt_init (nodes : List WorkflowNode) :
    GoodSt nodes { sorted := [], visited := [], visiting := [] } := by
  refine ⟨by simp, by simp, ?_, by simp, by simp⟩
  show GoodStack nodes (List.reverse [])
  simp only [List.reverse_nil]
  trivial

theorem sortMeasure_init_le (nodes : List WorkflowNode) :
    sortMeasure nodes { sorted := [], visited := [], visiting := [] } + 1 ≤
      sortFuel nodes := by
  have h1 : sortMeasure nodes { sorted := [], visited := [], visiting := [] } =
      (existingIds nodes).card := by
    simp [sortMeasure]
  have h2 : (existingIds nodes).card ≤ nodes.length := by
    calc (existingIds nodes).card ≤ (nodes.map (fun n => n.id)).length :=
          List.toFinset_card_le _
      _ = nodes.length := List.length_map _ _
  simp only [sortFuel]
  omega

/-- C1: on a list of nodes with pairwise-distinct ids whose graph is
acyclic, `topologicalSort` succeeds and returns every input node exactly
once (a permutation of the input), and for every edge `u → v` of a node
`u`'s `connected` list whose target node is present, the downstream node
`v` is emitted strictly before `u`; unvisited nodes are picked up by the
second loop in input order under the same post-order emission, which this
statement covers by quantifying over all nodes of the input. -/
theorem C1_topologicalSort_correct (nodes : List WorkflowNode)
    (hnd : (nodes.map (fun n => n.id)).Nodup) (hac : Acyclic nodes) :
    ∃ out, topologicalSort nodes = .ok out ∧ out.Perm nodes ∧
      ∀ u ∈ nodes, ∀ v ∈ nodes, v.id ∈ u.connected →
        ∃ l₁ l₂ l₃, out = l₁ ++ v :: (l₂ ++ u :: l₃) := by
  obtain ⟨st1, hst1⟩ := exceptFold_visit_total nodes hac (sortFuel nodes)
    ((nodes.filter (fun n => n.type == "trigger")).map (fun n => n.id))
    { sorted := [], visited := [], visiting := [] } rfl
    (sortMeasure_init_le nodes)
  have hvis1 : st1.visiting = [] :=
    (exceptFold_ext (visitF_ext nodes (sortFuel nodes)) _ _ st1 hst1).1
  have hfuel1 : sortMeasure nodes st1 + 1 ≤ sortFuel nodes := by
    have heq : sortMeasure nodes st1 =
        sortMeasure nodes { sorted := [], visited := [], visiting := [] } := by
      simp [sortMeasure, hvis1]
    have := sortMeasure_init_le nodes
    omega
  obtain ⟨st2, hst2⟩ :=
    remainingFold_total nodes hac (sortFuel nodes) nodes st1 hvis1 hfuel1
  have hsort : topologicalSort nodes = .ok st2.sorted := by
    unfold topologicalSort
    simp only [hst1, hst2]
  have hg2 : GoodSt nodes st2 :=
    remainingFold_good (visitF_good nodes (sortFuel nodes)) nodes st1 st2 hst2
      (exceptFold_good (visitF_good nodes (sortFuel nodes)) _ _ st1 hst1
        (goodSt_init nodes))
  obtain ⟨g1, g2, g3, g4, _⟩ := hg2
  have hall : ∀ n ∈ nodes, n.id ∈ st2.visited := by
    intro n hn
    exact remainingFold_post nodes (sortFuel nodes) nodes st1 st2 hst2 n hn
      (by rw [findNode_self nodes hnd n hn]; rfl)
  have hmem : ∀ n, n ∈ st2.sorted ↔ n ∈ nodes := by
    intro n
    constructor
    · intro h
      exact (findNode_eq_id (g4 n h)).2
    · intro hn
      have hid : n.id ∈ st2.sorted.map (fun m => m.id) :=
        (g1 n.id).mp (hall n hn)
      obtain ⟨m, hm, hmid⟩ := List.mem_map.mp hid
      have h4 : findNode nodes m.id = some m := g4 m hm
      rw [hmid, findNode_self nodes hnd n hn] at h4
      cases h4
      exact hm
  have hnodup_sorted : st2.sorted.Nodup := g2.of_map _
  have hnodup_nodes : nodes.Nodup := hnd.of_map _
  have hperm : st2.sorted.Perm nodes :=
    (List.subperm_of_subset hnodup_sorted
        (fun x hx => (hmem x).mp hx)).antisymm
      (List.subperm_of_subset hnodup_nodes (fun x hx => (hmem x).mpr hx))
  refine ⟨st2.sorted, hsort, hperm, ?_⟩
  intro u hu v hv hedge
  obtain ⟨pre, post, hsplit⟩ := List.append_of_mem ((hmem u).mpr hu)
  have hrev : st2.sorted.reverse = post.reverse ++ u :: pre.reverse := by
    rw [hsplit]
    simp
  have hgs : GoodStack nodes (post.reverse ++ u :: pre.reverse) := by
    rw [← hrev]
    exact g3
  have hvin : v.id ∈ pre.reverse.map (fun m => m.id) :=
    goodStack_split nodes post.reverse u pre.reverse hgs v.id hedge
      (by rw [findNode_self nodes hnd v hv]; rfl)
  rw [List.map_reverse, List.mem_reverse] at hvin
  obtain ⟨m, hm, hmid⟩ := List.mem_map.mp hvin
  have hmv : m = v := by
    have h4 : findNode nodes m.id = some m :=
      g4 m (by rw [hsplit]; exact List.mem_append_left _ hm)
    rw [hmid, findNode_self nodes hnd v hv] at h4
    cases h4
    rfl
  subst hmv
  obtain ⟨p1, p2, hpre⟩ := List.append_of_mem hm
  refine ⟨p1, p2, post, ?_⟩
  rw [hsplit, hpre]
  simp

/-- C5: on any node list containing a trigger node from which a cycle is
reachable, `topologicalSort` fails with the source's cycle error (a node
met while still on the active recursion path aborts the whole sort), and
a run of `executeWorkflow` on those nodes never creates any execution
context. -/
theorem C5_cycle_from_trigger_aborts (nodes : List WorkflowNode)
    (t : WorkflowNode) (ht : t ∈ nodes) (htt : t.type = "trigger")
    (hcr : CanReachCycle nodes t.id) :
    topologicalSort nodes = .error cycleErrorMsg ∧
      ∀ (α : Type) (insertOk : Bool) (execId : String)
        (exec : WorkflowNode → WorkflowExecutionContext α → NodeResult α)
        (td : Option α) (e : α),
        (executeWorkflow insertOk execId exec nodes td e).generations = [] := by
  have hmain : topologicalSort nodes = .error cycleErrorMsg := by
    rcases exceptFold_visit_ok_or_cycle nodes (sortFuel nodes)
        ((nodes.filter (fun n => n.type == "trigger")).map (fun n => n.id))
        { sorted := [], visited := [], visiting := [] }
        (sortMeasure_init_le nodes) with ⟨st1, hst1⟩ | hbad
    · exfalso
      have hsafe : SafeSt nodes st1 :=
        exceptFold_safe (visitF_safe nodes (sortFuel nodes)) _ _ st1 hst1
          (by intro w hw; simp at hw)
      have htr : t.id ∈
          (nodes.filter (fun n => n.type == "trigger")).map (fun n => n.id) :=
        List.mem_map.mpr ⟨t, List.mem_filter.mpr ⟨ht, by simp [htt]⟩, rfl⟩
      have htid : t.id ∈ st1.visited :=
        exceptFold_post nodes (sortFuel nodes) _ _ st1 hst1 t.id htr
          (List.find?_isSome.mpr ⟨t, ht, by simp⟩)
      exact hsafe t.id htid hcr
    · unfold topologicalSort
      simp only [hbad]
  refine ⟨hmain, ?_⟩
  intro α insertOk execId exec td e
  cases insertOk with
  | false => rfl
  | true => simp [executeWorkflow, hmain]

theorem trivNodes_no_edge : ∀ a b : String, ¬ edgeF trivNodes a b := by
  rintro a b ⟨n, hfind, hconn⟩
  have hmem := List.mem_of_find?_eq_some hfind
  simp only [trivNodes, List.mem_singleton] at hmem
  subst hmem
  simp [trivNode] at hconn

theorem trivNodes_acyclic : Acyclic trivNodes := by
  intro a h
  cases h with
  | single hb => exact trivNodes_no_edge _ _ hb
  | tail _ hb => exact trivNodes_no_edge _ _ hb

/-- Witness for C1 at a concrete acyclic single-trigger graph. -/
theorem C1_witness :
    ∃ out, topologicalSort trivNodes = .ok out ∧ out.Perm trivNodes ∧
      ∀ u ∈ trivNodes, ∀ v ∈ trivNodes, v.id ∈ u.connected →
        ∃ l₁ l₂ l₃, out = l₁ ++ v :: (l₂ ++ u :: l₃) :=
  C1_topologicalSort_correct trivNodes (by simp [trivNodes, trivNode])
    trivNodes_acyclic

/-- Witness for C5 at the concrete cyclic graph. -/
theorem C5_witness :
    topologicalSort cycNodes = .error cycleErrorMsg ∧
      ∀ (α : Type) (insertOk : Bool) (execId : String)
        (exec : WorkflowNode → WorkflowExecutionContext α → NodeResult α)
        (td : Option α) (e : α),
        (executeWorkflow insertOk execId exec cycNodes td e).generations = [] :=
  C5_cycle_from_trigger_aborts cycNodes cycTrigger
    (List.mem_cons_self cycTrigger [cycSelf]) rfl
    ⟨"a",
      Relation.ReflTransGen.single
        ⟨cycTrigger, rfl, by simp [cycTrigger]⟩,
      Relation.TransGen.single ⟨cycSelf, rfl, by simp [cycSelf]⟩⟩
